import Mathlib

/-!
Verification of the react-viz analysis pipeline (Go backend).

The Go source consists of `backend.go` (directory scan, per-file
classification, graph/tree assembly) and a config module
(`AliasConfig`, `ReadProjectConfig`, `ResolveImportPath`).  This file
shallowly embeds those functions over `List Char` strings and proves
the specification claims about them.

Strings are manipulated through their character lists (`String.data`)
so that every definition reduces in the kernel.  Go operates on bytes;
all string literals involved in the claims are ASCII, where the two
views agree.
-/

namespace ReactViz

/-! ## String utilities mirroring Go's `strings` / `path/filepath` helpers -/

/-- Does `pat` occur as a prefix of some suffix of the character list?
Mirrors `strings.Contains` (true for the empty pattern). -/
def containsAux (pat : List Char) : List Char → Bool
  | [] => pat.isEmpty
  | c :: rest => pat.isPrefixOf (c :: rest) || containsAux pat rest

/-- Embedding of Go `strings.Contains s sub`. -/
def goContains (s sub : String) : Bool := containsAux sub.data s.data

/-- Embedding of Go `strings.HasPrefix s p`. -/
def goStartsWith (s p : String) : Bool := p.data.isPrefixOf s.data

/-- Embedding of Go `strings.HasSuffix s p`. -/
def goEndsWith (s p : String) : Bool := p.data.isSuffixOf s.data

/-- Embedding of Go `strings.TrimSuffix s suf`. -/
def goTrimEnd (s suf : String) : String :=
  if goEndsWith s suf then String.mk (s.data.take (s.data.length - suf.data.length)) else s

/-- Embedding of Go `strings.TrimPrefix s pre`. -/
def goTrimStart (s pre : String) : String :=
  if goStartsWith s pre then String.mk (s.data.drop pre.data.length) else s

/-- Drop the first `n` characters, mirroring the Go slice `s[n:]` on ASCII data. -/
def goDropChars (s : String) (n : Nat) : String := String.mk (s.data.drop n)

/-- Suffix of the character list starting at its last dot, if any. -/
def extAux : List Char → Option (List Char)
  | [] => none
  | c :: cs =>
    match extAux cs with
    | some r => some r
    | none => if c = '.' then some (c :: cs) else none

/-- Embedding of Go `filepath.Ext` restricted to base names (no path
separators), which is the only way the source applies it: the suffix
beginning at the final dot, or the empty string if there is no dot. -/
def goExt (name : String) : String :=
  match extAux name.data with
  | some r => String.mk r
  | none => ""

/-- ASCII lowercasing, mirroring `strings.ToLower` on ASCII input. -/
def goToLower (s : String) : String := String.mk (s.data.map Char.toLower)

/-! ## File eligibility and classification (`backend.go`) -/

/-- Embedding of `isReactFile`: the extension, lowercased, is one of
`.js`, `.jsx`, `.ts`, `.tsx`. -/
def isReactFile (filename : String) : Bool :=
  let ext := goToLower (goExt filename)
  ext = ".js" || ext = ".jsx" || ext = ".ts" || ext = ".tsx"

/-- Whitespace class of Go's RE2 `\s`, namely `[\t\n\f\r ]`. -/
def isSpaceChar (c : Char) : Bool :=
  c = ' ' || c = '\t' || c = '\n' || c = '\r' || c = '\x0c'

/-- Word-character class of Go's RE2 `\w`, namely `[0-9A-Za-z_]`. -/
def isWordChar (c : Char) : Bool := c.isAlphanum || c = '_'

/-- Opening-parenthesis-or-brace class `[({]` used by both regexes. -/
def isOpenBracket (c : Char) : Bool := c = '(' || c = Char.ofNat 123

/-- Does the regex `kw\s+\w+\s*[({]` match starting exactly here?  The
character classes `\s`, `\w`, `[({]` are pairwise disjoint, so greedy
munching is equivalent to RE2's search. -/
def matchDeclFrom (kw : String) (cs : List Char) : Bool :=
  if kw.data.isPrefixOf cs then
    let r1 := cs.drop kw.data.length
    if (r1.takeWhile isSpaceChar).isEmpty then false
    else
      let r2 := r1.dropWhile isSpaceChar
      if (r2.takeWhile isWordChar).isEmpty then false
      else
        match (r2.dropWhile isWordChar).dropWhile isSpaceChar with
        | c :: _ => isOpenBracket c
        | [] => false
  else false

/-- Does `(function|const|class)\s+\w+\s*[({]` match starting here? -/
def declAt (cs : List Char) : Bool :=
  matchDeclFrom "function" cs || matchDeclFrom "const" cs || matchDeclFrom "class" cs

/-- Does `p` hold of some suffix of the list? -/
def anyTail (p : List Char → Bool) : List Char → Bool
  | [] => p []
  | c :: cs => p (c :: cs) || anyTail p cs

/-- Embedding of `regexp.MustCompile("(function|const|class)\\s+\\w+\\s*[({]").MatchString`. -/
def declRegexMatch (content : String) : Bool := anyTail declAt content.data

/-- Match length of `kw\s+[A-Z]\w+\s*[({]` starting exactly here
(for the `hasMultipleComponents` regex). -/
def matchLenMulti (kw : String) (cs : List Char) : Option Nat :=
  if kw.data.isPrefixOf cs then
    let r1 := cs.drop kw.data.length
    let sp := r1.takeWhile isSpaceChar
    if sp.isEmpty then none
    else
      match r1.dropWhile isSpaceChar with
      | u :: r2 =>
        if 'A' ≤ u && u ≤ 'Z' then
          let w := r2.takeWhile isWordChar
          if w.isEmpty then none
          else
            let r3 := r2.dropWhile isWordChar
            let sp2 := r3.takeWhile isSpaceChar
            match r3.dropWhile isSpaceChar with
            | c :: _ =>
              if isOpenBracket c then
                some (kw.data.length + sp.length + 1 + w.length + sp2.length + 1)
              else none
            | [] => none
        else none
      | [] => none
  else none

/-- Match length of `(function|const|class)\s+[A-Z]\w+\s*[({]` at this
position (the keyword alternatives have pairwise distinct prefixes, so
at most one applies). -/
def multiAt (cs : List Char) : Option Nat :=
  (matchLenMulti "function" cs).orElse fun _ =>
    (matchLenMulti "class" cs).orElse fun _ => matchLenMulti "const" cs

/-- Count non-overlapping leftmost matches, as `FindAllString` does:
after a match of length `L` scanning resumes `L` characters later,
otherwise one character later.  `fuel` bounds the recursion; it is
instantiated with the list length. -/
def countMultiAux : Nat → List Char → Nat
  | 0, _ => 0
  | _ + 1, [] => 0
  | fuel + 1, c :: cs =>
    match multiAt (c :: cs) with
    | some L => 1 + countMultiAux fuel ((c :: cs).drop L)
    | none => countMultiAux fuel cs

/-- Embedding of `hasMultipleComponents`: more than one match of the
uppercase-identifier declaration regex. -/
def hasMultipleComponents (content : String) : Bool :=
  1 < countMultiAux content.data.length content.data

/-- Embedding of `isComponentFile`.  Note the Go source computes
`hasComponentDef` as `regex.MatchString(content) && strings.Contains(content, "render") || strings.Contains(content, "return")`,
and Go's `&&` binds tighter than `||`; the Lean `&&`/`||` below have the
same relative precedence, reproducing that grouping. -/
def isComponentFile (content fileName : String) : Bool :=
  let hasReactImport := goContains content "import React" ||
    goContains content "from \x27react\x27" || goContains content "from \"react\""
  let hasJSXReturn := goContains content "return (" &&
    (goContains content "<" && goContains content "/>")
  let hasComponentDef := declRegexMatch content && goContains content "render" ||
    goContains content "return"
  let startsWithUppercase :=
    match fileName.data with
    | c :: _ => 'A' ≤ c && c ≤ 'Z'
    | [] => false
  (hasReactImport && (hasJSXReturn || hasComponentDef)) || startsWithUppercase

/-- Embedding of `isStateFile`. -/
def isStateFile (content path : String) : Bool :=
  let isRedux := goContains content "createStore" ||
    goContains content "combineReducers" ||
    goContains content "createSlice" ||
    goContains path "redux" ||
    goContains path "store" ||
    goContains path "state" ||
    goContains path "reducer" ||
    goContains path "action"
  let isOtherState := goContains content "useContext" ||
    goContains content "createContext" ||
    goContains content "Provider" ||
    goContains content "zustand" ||
    goContains content "recoil" ||
    goContains content "jotai" ||
    goContains content "mobx"
  isRedux || isOtherState

/-- Embedding of the role-assignment order of `parseFile` (lines
158-166 of `backend.go`): component is tested first, then state,
otherwise util. -/
def fileType (content relPath fileName : String) : String :=
  if isComponentFile content fileName then "component"
  else if isStateFile content relPath then "state"
  else "util"

/-! ## Path helpers (`path/filepath` on forward-slash paths) -/

/-- Split a character list at every occurrence of `sep` (the splitter
underlying `filepath.Dir`/`Base` on slash paths). -/
def splitOnChar (sep : Char) : List Char → List (List Char)
  | [] => [[]]
  | c :: cs =>
    match splitOnChar sep cs with
    | [] => [[]]
    | h :: t => if c = sep then [] :: h :: t else (c :: h) :: t

/-- Slash-separated segments of a path string. -/
def splitSlash (s : String) : List String := (splitOnChar '/' s.data).map String.mk

/-- Embedding of Go `filepath.Dir` restricted to the already-clean
relative slash paths the scanner produces: everything before the final
separator, or `.` when there is none. -/
def goDir (p : String) : String :=
  let parts := splitSlash p
  if parts.length ≤ 1 then "." else String.intercalate "/" parts.dropLast

/-- Embedding of Go `filepath.Base` restricted to clean paths without
trailing separators: the last non-empty segment, `.` for the empty
string, `/` when only separators remain. -/
def goBase (p : String) : String :=
  if p = "" then "."
  else
    match ((splitSlash p).filter (fun s => s ≠ "")).getLast? with
    | some l => l
    | none => "/"

/-- Embedding of the display-name derivation of `parseFile` (lines
133-148 of `backend.go`).  In the root-index branch the source assigns
`parentDir = filepath.Base(rootDir)` but never writes `componentName`,
so the name stays `index`; that dead store is reproduced here by
leaving the name unchanged. -/
def componentNameOf (fileName relPath rootDir : String) : String :=
  let fileNameWithoutExt := goTrimEnd fileName (goExt fileName)
  if fileNameWithoutExt = "index" then
    let parentDir := goDir relPath
    if parentDir = "." then
      let _ := goBase rootDir
      fileNameWithoutExt
    else goBase parentDir ++ "/index"
  else fileNameWithoutExt

/-! ## Claims C1-C3: classification order, component rule, display names -/

/-- C1 counterexample: the file `store/Store.js` containing
`createSlice` matches the state signatures (content `createSlice`,
path containing `store`), yet `parseFile` evaluates the component rule
first and the uppercase file name wins, so the role is `component`,
not `state` as the claim requires. -/
theorem C1_counterexample :
    fileType "createSlice" "store/Store.js" "Store.js" = "component" ∧
    isStateFile "createSlice" "store/Store.js" = true ∧
    ("component" : String) ≠ "state" := by decide

/-- C1 (amended): a file matching a state-management signature is
classified `state` exactly when the component rule - which `parseFile`
evaluates first - does not match; in that case the util rule is never
reached. -/
theorem C1_state_if_not_component (content path fileName : String)
    (hs : isStateFile content path = true)
    (hc : isComponentFile content fileName = false) :
    fileType content path fileName = "state" := by
  simp [fileType, hs, hc]

/-- C1 witness: `src/store/userSlice.js` containing `createSlice`
(lowercase base name, no component signal) is classified `state`. -/
theorem C1_witness :
    isStateFile "createSlice" "src/store/userSlice.js" = true ∧
    isComponentFile "createSlice" "userSlice.js" = false ∧
    fileType "createSlice" "src/store/userSlice.js" "userSlice.js" = "state" :=
  ⟨by decide, by decide, C1_state_if_not_component _ _ _ (by decide) (by decide)⟩

/-- Component predicate as the claim C2 words it (stated from the
specification text, for comparison with the source's
`isComponentFile`): the declaration test requires a
function/const/class declaration co-occurring with `render` or
`return`, i.e. the grouping `decl && (render || return)`. -/
def isComponentFileClaimed (content fileName : String) : Bool :=
  let hasReactImport := goContains content "import React" ||
    goContains content "from \x27react\x27" || goContains content "from \"react\""
  let hasJSXReturn := goContains content "return (" &&
    (goContains content "<" && goContains content "/>")
  let hasComponentDef := declRegexMatch content &&
    (goContains content "render" || goContains content "return")
  let startsWithUppercase :=
    match fileName.data with
    | c :: _ => 'A' ≤ c && c ≤ 'Z'
    | [] => false
  (hasReactImport && (hasJSXReturn || hasComponentDef)) || startsWithUppercase

/-- C2 counterexample: a lowercase-named file whose text has a
React import and the token `return` (inside `returnValue`) but no
function/const/class declaration and no JSX return pattern.  The claim
says this is not a component, but the source's `&&`/`||` grouping
`(decl && render) || return` makes the bare token `return` sufficient,
so `isComponentFile` returns true. -/
theorem C2_counterexample :
    isComponentFile "import React from \x27react\x27; export default returnValue"
      "util.js" = true ∧
    isComponentFileClaimed "import React from \x27react\x27; export default returnValue"
      "util.js" = false := by decide

/-- C2 (amended): a file is classified as a component exactly when its
text contains a React import and (the JSX-like return pattern, or a
function/const/class declaration co-occurring with `render`, or simply
the token `return`), or its base file name starts with an uppercase
letter. -/
theorem C2_component_characterization (content fileName : String) :
    isComponentFile content fileName = true ↔
      (((goContains content "import React" = true ∨
         goContains content "from \x27react\x27" = true ∨
         goContains content "from \"react\"" = true) ∧
        ((goContains content "return (" = true ∧ goContains content "<" = true ∧
          goContains content "/>" = true) ∨
         (declRegexMatch content = true ∧ goContains content "render" = true) ∨
         goContains content "return" = true)) ∨
       (∃ c rest, fileName.data = c :: rest ∧ 'A' ≤ c ∧ c ≤ 'Z')) := by
  unfold isComponentFile
  cases h : fileName.data <;> simp [h, List.cons.injEq] <;> tauto

/-- C3: the source's comment says a root-level `index.*` file should
take the project folder's name, but the root branch of `parseFile`
stores `filepath.Base(rootDir)` into the dead variable `parentDir` and
never into `componentName`, so the display name stays `index` instead
of the project root folder's base name (`myapp` here).  The non-root
half of the rule does hold: `src/index.js` is named `src/index`. -/
theorem C3_root_index_divergence :
    componentNameOf "index.js" "index.js" "/home/user/myapp" = "index" ∧
    goBase "/home/user/myapp" = "myapp" ∧
    ("index" : String) ≠ "myapp" ∧
    componentNameOf "index.js" "src/index.js" "/home/user/myapp" = "src/index" := by
  decide

/-! ## Claim C4: alias resolution (`ResolveImportPath`, config module) -/

/-- One step of Go `filepath.Clean`'s element processing: skip empty
and `.` segments, let `..` pop a previous segment (or accumulate at the
front of a relative path, or vanish at the root of a rooted one).  The
accumulator is the reversed stack of kept segments. -/
def cleanSeg (rooted : Bool) (acc : List String) (seg : String) : List String :=
  if seg = "" || seg = "." then acc
  else if seg = ".." then
    match acc with
    | t :: acc' => if t = ".." then seg :: t :: acc' else acc'
    | [] => if rooted then [] else [".."]
  else seg :: acc

/-- Embedding of Go `filepath.Clean` on forward-slash paths. -/
def goClean (p : String) : String :=
  if p = "" then "."
  else
    let rooted := goStartsWith p "/"
    let stack := ((splitSlash p).foldl (cleanSeg rooted) []).reverse
    if stack.isEmpty then (if rooted then "/" else ".")
    else (if rooted then "/" else "") ++ String.intercalate "/" stack

/-- Embedding of Go `filepath.Join`: drop empty elements, join with a
separator, `Clean` the result; the empty string when every element is
empty. -/
def goJoin (elems : List String) : String :=
  let ne := elems.filter (fun e => e ≠ "")
  if ne.isEmpty then "" else goClean (String.intercalate "/" ne)

/-- Embedding of Go `filepath.IsAbs` on unix paths. -/
def goIsAbs (p : String) : Bool := goStartsWith p "/"

/-- Embedding of the source's `AliasConfig`.  Go stores the aliases in
a `map[string]string`, whose iteration order is unspecified; the list
here fixes one iteration order, and theorems quantify over
reorderings. -/
structure AliasConfig where
  baseURL : String
  aliases : List (String × String)

/-- Embedding of `ResolveImportPath` (config module, lines 186-228):
relative and rooted specifiers resolve against the current directory
and project root; otherwise the first alias (in iteration order) whose
key prefix-matches the specifier is substituted; otherwise the baseURL
or the project root applies. -/
def ResolveImportPath (importPath : String) (config : AliasConfig)
    (projectDir currentDir : String) : String :=
  if goStartsWith importPath "." then goJoin [currentDir, importPath]
  else if goStartsWith importPath "/" then goJoin [projectDir, goDropChars importPath 1]
  else
    match config.aliases.find? (fun kv => goStartsWith importPath kv.1) with
    | some kv =>
      let relativePath := goTrimStart importPath kv.1
      let relativePath :=
        if goStartsWith relativePath "/" then goDropChars relativePath 1 else relativePath
      if goIsAbs kv.2 then goJoin [kv.2, relativePath]
      else if config.baseURL ≠ "" then goJoin [projectDir, config.baseURL, kv.2, relativePath]
      else goJoin [projectDir, kv.2, relativePath]
    | none =>
      if config.baseURL ≠ "" then goJoin [projectDir, config.baseURL, importPath]
      else goJoin [projectDir, importPath]

/-- First satisfying element is the head of the filtered list. -/
theorem find?_eq_head?_filter {α} (p : α → Bool) (l : List α) :
    l.find? p = (l.filter p).head? := by
  induction l with
  | nil => rfl
  | cons a t ih =>
    by_cases h : p a
    · rw [List.find?_cons_of_pos _ h, List.filter_cons_of_pos h, List.head?_cons]
    · rw [List.find?_cons_of_neg _ h, List.filter_cons_of_neg h, ih]

/-- When at most one element satisfies the predicate, `find?` does not
depend on the order of the list. -/
theorem find?_eq_of_perm_of_le_one {α} (p : α → Bool) {l1 l2 : List α}
    (hperm : l1.Perm l2) (hle : (l1.filter p).length ≤ 1) :
    l1.find? p = l2.find? p := by
  have hf : (l1.filter p).Perm (l2.filter p) := hperm.filter p
  rw [find?_eq_head?_filter, find?_eq_head?_filter]
  match h1 : l1.filter p with
  | [] =>
    rw [h1] at hf
    rw [← hf.symm.eq_nil]
  | [a] =>
    rw [h1] at hf
    rw [List.singleton_perm.mp hf]
  | a :: b :: t =>
    rw [h1] at hle
    simp at hle

/-- C4 counterexample: with the alias set containing both `a -> x` and
`ab -> y`, both keys prefix-match the specifier `ab/z`, and the two
iteration orders of the same key-value set resolve it to different
paths. -/
theorem C4_counterexample :
    ([("a", "x"), ("ab", "y")] : List (String × String)).Perm [("ab", "y"), ("a", "x")] ∧
    ResolveImportPath "ab/z" ⟨"", [("a", "x"), ("ab", "y")]⟩ "proj" "cur" = "proj/x/b/z" ∧
    ResolveImportPath "ab/z" ⟨"", [("ab", "y"), ("a", "x")]⟩ "proj" "cur" = "proj/y/z" ∧
    ("proj/x/b/z" : String) ≠ "proj/y/z" :=
  ⟨List.Perm.swap ("ab", "y") ("a", "x") [], by decide, by decide, by decide⟩

/-- C4 (amended): resolution is deterministic in the alias
configuration viewed as a set of key-value pairs whenever at most one
configured alias prefix-matches the specifier; when several aliases
match, the result depends on the unspecified map iteration order. -/
theorem C4_resolve_deterministic (imp base proj cur : String)
    (l1 l2 : List (String × String)) (hperm : l1.Perm l2)
    (huniq : (l1.filter (fun kv => goStartsWith imp kv.1)).length ≤ 1) :
    ResolveImportPath imp ⟨base, l1⟩ proj cur = ResolveImportPath imp ⟨base, l2⟩ proj cur := by
  unfold ResolveImportPath
  rw [find?_eq_of_perm_of_le_one _ hperm huniq]

/-- C4 witness: with aliases `a -> x` and `b -> y`, only `a` matches
`a/z`, and the two iteration orders agree on the resolved path. -/
theorem C4_witness :
    ([("a", "x"), ("b", "y")] : List (String × String)).Perm [("b", "y"), ("a", "x")] ∧
    (([("a", "x"), ("b", "y")] : List (String × String)).filter
      (fun kv => goStartsWith "a/z" kv.1)).length ≤ 1 ∧
    ResolveImportPath "a/z" ⟨"", [("a", "x"), ("b", "y")]⟩ "proj" "cur" =
      ResolveImportPath "a/z" ⟨"", [("b", "y"), ("a", "x")]⟩ "proj" "cur" :=
  ⟨List.Perm.swap ("b", "y") ("a", "x") [], by decide,
    C4_resolve_deterministic "a/z" "" "proj" "cur" _ _
      (List.Perm.swap ("b", "y") ("a", "x") []) (by decide)⟩

/-! ## Claim C7: config-file search (`ReadProjectConfig`, config module)

The JSON decoding steps (`json.Unmarshal` into the `JSConfig` and
`PackageJSON` shapes) and the regex-based best-effort scan of `.js`
configs (`parseJSConfig`) are abstracted as function parameters; the
search-order theorem quantifies over them, so it holds for the real
decoders. -/

/-- Decoded shape of a jsconfig/tsconfig file (`JSConfig` in the
source): `compilerOptions.baseUrl` and `compilerOptions.paths`. -/
structure JSConfigData where
  baseURL : String
  paths : List (String × List String)
deriving DecidableEq

/-- Decoded shape of a package.json file (`PackageJSON` in the
source): a direct alias map and the jest `moduleNameMapper` table. -/
structure PackageJSONData where
  aliasMap : List (String × String)
  jestModuleNameMapper : List (String × String)
deriving DecidableEq

/-- Go map assignment `m[k] = v` on an association list. -/
def upsert (m : List (String × String)) (k v : String) : List (String × String) :=
  if m.any (fun kv => kv.1 = k) then m.map (fun kv => if kv.1 = k then (k, v) else kv)
  else m ++ [(k, v)]

/-- Replace the first occurrence of the (non-empty) pattern, as
`strings.Replace(s, pat, rep, 1)`. -/
def replaceFirstAux (pat rep : List Char) : List Char → List Char
  | [] => []
  | c :: rest =>
    if pat.isPrefixOf (c :: rest) then rep ++ (c :: rest).drop pat.length
    else c :: replaceFirstAux pat rep rest

/-- String version of `replaceFirstAux`. -/
def replaceFirst (s pat rep : String) : String :=
  String.mk (replaceFirstAux pat.data rep.data s.data)

/-- Effect of a successfully decoded jsconfig/tsconfig on the alias
config (lines 86-103 of the config module): adopt `baseUrl`, then add
each `paths` entry with `/*` stripped from the key and from the first
target. -/
def applyJSConfig (js : JSConfigData) (config : AliasConfig) : AliasConfig :=
  let config := { config with baseURL := js.baseURL }
  js.paths.foldl (fun cfg kv =>
    match kv.2 with
    | [] => cfg
    | t0 :: _ =>
      let aliasKey := goTrimEnd kv.1 "/*"
      let target := goTrimEnd t0 "/*"
      { cfg with aliases := upsert cfg.aliases aliasKey target }) config

/-- Effect of a successfully decoded package.json (lines 107-131):
direct aliases, then jest module-name-mapper entries with the regex
decoration stripped from keys and the rootDir template from targets. -/
def applyPackageJSON (pkg : PackageJSONData) (config : AliasConfig) : AliasConfig :=
  let config := pkg.aliasMap.foldl
    (fun cfg kv => { cfg with aliases := upsert cfg.aliases kv.1 kv.2 }) config
  pkg.jestModuleNameMapper.foldl (fun cfg kv =>
    let a := goTrimStart kv.1 "^"
    let a := goTrimEnd a "/(.*)$"
    let a := goTrimEnd a "(.*)$"
    let t := replaceFirst kv.2 "<rootDir>/" ""
    let t := goTrimEnd t "/$1"
    if a ≠ "" && t ≠ "" then { cfg with aliases := upsert cfg.aliases a t } else cfg) config

/-- Pure part of `parseJSONConfig` once the file contents are in hand:
a failed `Unmarshal` leaves the config unchanged (the source falls
through its suffix checks and still returns nil). -/
def parseJSONBody (p1 : String → Option JSConfigData) (p2 : String → Option PackageJSONData)
    (configPath data : String) (config : AliasConfig) : AliasConfig :=
  if goEndsWith configPath "jsconfig.json" || goEndsWith configPath "tsconfig.json" then
    match p1 data with
    | some js => applyJSConfig js config
    | none => config
  else if goEndsWith configPath "package.json" then
    match p2 data with
    | some pkg => applyPackageJSON pkg config
    | none => config
  else config

/-- Embedding of `parseJSONConfig` (lines 78-134): it returns an error
exactly when reading the file fails (`content = none`); every other
path - including a failed JSON parse - returns success. -/
def parseJSONConfig (p1 : String → Option JSConfigData) (p2 : String → Option PackageJSONData)
    (configPath : String) (content : Option String) (config : AliasConfig) :
    Except Unit AliasConfig :=
  match content with
  | none => .error ()
  | some data => .ok (parseJSONBody p1 p2 configPath data config)

/-- The fixed candidate list of `ReadProjectConfig` (lines 25-33). -/
def configFiles : List String :=
  ["jsconfig.json", "tsconfig.json", "webpack.config.js", "craco.config.js",
   ".babelrc", "babel.config.js", "package.json"]

/-- Embedding of the candidate loop of `ReadProjectConfig` (lines
35-58).  `fs name = none` models a failed `os.Stat`; `some none` a
file that exists but cannot be read; `some (some data)` a readable
file.  `jsEffect` abstracts `parseJSConfig` (best-effort, never
terminates the search).  The second component records every candidate
the loop examined, in order.  After the loop, `hasSrcDir` models the
`src`-directory fallback for `baseUrl`. -/
def readConfigLoop (p1 : String → Option JSConfigData) (p2 : String → Option PackageJSONData)
    (jsEffect : Option String → AliasConfig → AliasConfig)
    (fs : String → Option (Option String)) (hasSrcDir : Bool) :
    List String → AliasConfig → List String → AliasConfig × List String
  | [], config, consulted =>
    (if hasSrcDir then { config with baseURL := "src" } else config, consulted)
  | cf :: rest, config, consulted =>
    match fs cf with
    | none => readConfigLoop p1 p2 jsEffect fs hasSrcDir rest config (consulted ++ [cf])
    | some content? =>
      if goExt cf = ".json" then
        match parseJSONConfig p1 p2 cf content? config with
        | .ok cfg => (cfg, consulted ++ [cf])
        | .error _ => readConfigLoop p1 p2 jsEffect fs hasSrcDir rest config (consulted ++ [cf])
      else if goExt cf = ".js" then
        readConfigLoop p1 p2 jsEffect fs hasSrcDir rest (jsEffect content? config)
          (consulted ++ [cf])
      else readConfigLoop p1 p2 jsEffect fs hasSrcDir rest config (consulted ++ [cf])

/-- Embedding of `ReadProjectConfig`: run the candidate loop from the
default config, returning the final config and the consulted trace. -/
def ReadProjectConfig (p1 : String → Option JSConfigData) (p2 : String → Option PackageJSONData)
    (jsEffect : Option String → AliasConfig → AliasConfig)
    (fs : String → Option (Option String)) (hasSrcDir : Bool) : AliasConfig × List String :=
  readConfigLoop p1 p2 jsEffect fs hasSrcDir configFiles ⟨"", []⟩ []

/-- A candidate terminates the search exactly when it has the `.json`
extension, exists, and is readable - whether or not it parses. -/
def isTerminatingCandidate (fs : String → Option (Option String)) (cf : String) : Bool :=
  if goExt cf = ".json" then
    match fs cf with
    | some (some _) => true
    | _ => false
  else false

/-- Candidates examined by the search: everything up to and including
the first terminating candidate, or the whole list. -/
def consultedCandidates (fs : String → Option (Option String)) : List String → List String
  | [] => []
  | cf :: rest =>
    if isTerminatingCandidate fs cf then [cf] else cf :: consultedCandidates fs rest

/-- The candidate loop consults exactly the candidates up to and
including the first readable `.json` file. -/
theorem readConfigLoop_snd (p1 : String → Option JSConfigData)
    (p2 : String → Option PackageJSONData)
    (jsEffect : Option String → AliasConfig → AliasConfig)
    (fs : String → Option (Option String)) (hasSrcDir : Bool) (cfs : List String) :
    ∀ (config : AliasConfig) (consulted : List String),
      (readConfigLoop p1 p2 jsEffect fs hasSrcDir cfs config consulted).2 =
        consulted ++ consultedCandidates fs cfs := by
  induction cfs with
  | nil => intro config consulted; simp [readConfigLoop, consultedCandidates]
  | cons cf rest ih =>
    intro config consulted
    by_cases hj : goExt cf = ".json"
    · cases hfs : fs cf with
      | none => simp [readConfigLoop, consultedCandidates, isTerminatingCandidate, hfs, hj, ih]
      | some content? =>
        cases content? with
        | none =>
          simp [readConfigLoop, consultedCandidates, isTerminatingCandidate, parseJSONConfig,
            hfs, hj, ih]
        | some data =>
          simp [readConfigLoop, consultedCandidates, isTerminatingCandidate, parseJSONConfig,
            hfs, hj]
    · cases hfs : fs cf with
      | none => simp [readConfigLoop, consultedCandidates, isTerminatingCandidate, hfs, hj, ih]
      | some content? =>
        by_cases hjs : goExt cf = ".js" <;>
          simp [readConfigLoop, consultedCandidates, isTerminatingCandidate, hfs, hj, hjs, ih]

/-- C7 (amended): the search examines the candidates in the fixed
order and stops at the first `.json` candidate that exists and is
successfully read - whether or not its contents parse as JSON (a parse
failure merely contributes nothing); `.js` candidates and unreadable
or missing files never terminate the search, and candidates after the
terminating one are never consulted. -/
theorem C7_config_search (p1 : String → Option JSConfigData)
    (p2 : String → Option PackageJSONData)
    (jsEffect : Option String → AliasConfig → AliasConfig)
    (fs : String → Option (Option String)) (hasSrcDir : Bool) :
    (ReadProjectConfig p1 p2 jsEffect fs hasSrcDir).2 = consultedCandidates fs configFiles := by
  unfold ReadProjectConfig
  rw [readConfigLoop_snd]
  simp

/-- Contents of a well-formed tsconfig used by the C7 counterexample. -/
def demoTsContent : String :=
  "\x7b \"compilerOptions\": \x7b \"baseUrl\": \"src\" \x7d \x7d"

/-- Model of `json.Unmarshal` into `JSConfig` on the two concrete
contents of the C7 counterexample: it fails on `###` (not JSON) and
succeeds on the well-formed tsconfig contents. -/
def demoUnmarshalJS : String → Option JSConfigData := fun s =>
  if s = demoTsContent then some ⟨"src", []⟩ else none

/-- File system of the C7 counterexample: `jsconfig.json` exists and
is readable but holds `###`; `tsconfig.json` exists, is readable and
well-formed; nothing else exists. -/
def demoFS : String → Option (Option String) := fun name =>
  if name = "jsconfig.json" then some (some "###")
  else if name = "tsconfig.json" then some (some demoTsContent) else none

/-- C7 counterexample: `jsconfig.json` is readable but fails to parse,
yet the search terminates there with the default (empty) config; the
parseable `tsconfig.json` is never consulted, contrary to the claim
that a parse failure does not terminate the search. -/
theorem C7_counterexample :
    (ReadProjectConfig demoUnmarshalJS (fun _ => none) (fun _ c => c) demoFS true).2 =
      ["jsconfig.json"] ∧
    (ReadProjectConfig demoUnmarshalJS (fun _ => none) (fun _ c => c) demoFS true).1.aliases
      = [] ∧
    (ReadProjectConfig demoUnmarshalJS (fun _ => none) (fun _ c => c) demoFS true).1.baseURL
      = "" ∧
    demoUnmarshalJS demoTsContent = some ⟨"src", []⟩ := by decide

/-! ## Node registry and reverse edges (`buildRelationships`, claim C6) -/

/-- Embedding of `ComponentNode` from `backend.go`. -/
structure ComponentNode where
  id : String
  name : String
  path : String
  type : String
  multipleComp : Bool
  imports : List String
  importedBy : List String
  children : List ComponentNode

/-- The `NodesMap` registry.  Go stores it as a `map[string]ComponentNode`
with unspecified iteration order; the association list fixes one order,
and the C6 statement is order-independent. -/
abbrev Registry := List (String × ComponentNode)

/-- Append one reverse-import entry, as `importedNode.ImportedBy = append(..., id)`. -/
def appendImportedBy (n : ComponentNode) (id : String) : ComponentNode :=
  { n with importedBy := n.importedBy ++ [id] }

/-- One step of `buildRelationships`: if `imp` is a registered key,
append `id` to that node's reverse list and store it back; otherwise
do nothing (the map update only fires when the key exists). -/
def updIB (reg : Registry) (imp id : String) : Registry :=
  reg.map (fun kv => if kv.1 = imp then (kv.1, appendImportedBy kv.2 id) else kv)

/-- Embedding of `buildRelationships` (lines 292-302 of `backend.go`):
for every node and every entry of its (never-modified) import list,
run the conditional reverse-append.  Iterating the original list while
threading the updates is faithful because the loop never changes any
`imports` field or the key set. -/
def buildRelationships (reg : Registry) : Registry :=
  reg.foldl (fun acc kv => kv.2.imports.foldl (fun a i => updIB a i kv.1) acc) reg

/-- Flattened (importer, import) occurrences of the registry. -/
def importPairs (reg : Registry) : List (String × String) :=
  reg.flatMap (fun kv => kv.2.imports.map (fun i => (kv.1, i)))

/-- Apply a list of (importer, import) pairs in order. -/
def applyPairs (reg : Registry) (qs : List (String × String)) : Registry :=
  qs.foldl (fun a q => updIB a q.2 q.1) reg

theorem applyPairs_append (reg : Registry) (xs ys : List (String × String)) :
    applyPairs reg (xs ++ ys) = applyPairs (applyPairs reg xs) ys :=
  List.foldl_append _ _ _ _

theorem foldl_build_eq_applyPairs :
    ∀ (l : List (String × ComponentNode)) (acc : Registry),
      l.foldl (fun acc kv => kv.2.imports.foldl (fun a i => updIB a i kv.1) acc) acc =
        applyPairs acc (l.flatMap (fun kv => kv.2.imports.map (fun i => (kv.1, i))))
  | [], acc => rfl
  | kv :: l, acc => by
    have hstep : kv.2.imports.foldl (fun a i => updIB a i kv.1) acc =
        applyPairs acc (kv.2.imports.map (fun i => (kv.1, i))) := by
      unfold applyPairs
      rw [List.foldl_map]
    rw [List.foldl_cons, foldl_build_eq_applyPairs l, hstep, List.flatMap_cons,
      applyPairs_append]

theorem buildRelationships_eq_applyPairs (reg : Registry) :
    buildRelationships reg = applyPairs reg (importPairs reg) :=
  foldl_build_eq_applyPairs reg reg

theorem updIB_eq_map (reg : Registry) (imp id : String) :
    updIB reg imp id =
      reg.map (fun kv => (kv.1, if kv.1 = imp then appendImportedBy kv.2 id else kv.2)) := by
  unfold updIB
  have h : ∀ kv : String × ComponentNode,
      (if kv.1 = imp then (kv.1, appendImportedBy kv.2 id) else kv) =
        (kv.1, if kv.1 = imp then appendImportedBy kv.2 id else kv.2) := by
    intro kv
    by_cases hkv : kv.1 = imp <;> simp [hkv]
  rw [funext h]

theorem lookup_map_keyfun (g : String → ComponentNode → ComponentNode) :
    ∀ (l : Registry) (I : String),
      (l.map (fun kv => (kv.1, g kv.1 kv.2))).lookup I = (l.lookup I).map (g I)
  | [], _ => rfl
  | (k, v) :: t, I => by
    cases h : I == k with
    | true =>
      have hIk : I = k := eq_of_beq h
      subst hIk
      simp [List.lookup, h]
    | false =>
      simp [List.lookup, h, lookup_map_keyfun g t I]

theorem lookup_updIB (imp id I : String) (reg : Registry) :
    (updIB reg imp id).lookup I =
      (reg.lookup I).map (fun n => if I = imp then appendImportedBy n id else n) := by
  rw [updIB_eq_map,
    lookup_map_keyfun (fun k v => if k = imp then appendImportedBy v id else v) reg I]

@[simp] theorem ComponentNode.eta (n : ComponentNode) :
    ({ id := n.id, name := n.name, path := n.path, type := n.type,
       multipleComp := n.multipleComp, imports := n.imports,
       importedBy := n.importedBy, children := n.children } : ComponentNode) = n := by
  cases n
  rfl

theorem lookup_applyPairs (I : String) :
    ∀ (qs : List (String × String)) (reg : Registry),
      (applyPairs reg qs).lookup I =
        (reg.lookup I).map (fun n =>
          { n with importedBy :=
              n.importedBy ++ ((qs.filter (fun q => q.2 = I)).map Prod.fst) })
  | [], reg => by
    show reg.lookup I = (reg.lookup I).map _
    cases hL : reg.lookup I with
    | none => rfl
    | some n =>
      simp
  | q :: qs, reg => by
    have hstep : applyPairs reg (q :: qs) = applyPairs (updIB reg q.2 q.1) qs := rfl
    rw [hstep, lookup_applyPairs I qs, lookup_updIB]
    cases hL : reg.lookup I with
    | none => rfl
    | some n =>
      by_cases hq : I = q.2
      · simp [hq, List.filter_cons, appendImportedBy]
      · simp [hq, Ne.symm hq, List.filter_cons]

theorem lookup_mem : ∀ {l : Registry} {a : String} {b : ComponentNode},
    l.lookup a = some b → (a, b) ∈ l
  | (k, v) :: t, a, b, h => by
    by_cases hk : a = k
    · subst hk
      simp [List.lookup] at h
      simp [h]
    · have hbeq : (a == k) = false := by simp [hk]
      simp [List.lookup, hbeq] at h
      exact List.mem_cons_of_mem _ (lookup_mem h)

theorem count_fst_filter (I id0 : String) :
    ∀ (qs : List (String × String)),
      ((qs.filter (fun q => q.2 = I)).map Prod.fst).count id0 =
        qs.countP (fun q => q.1 == id0 && q.2 == I)
  | [] => rfl
  | q :: qs => by
    by_cases hq : q.2 = I
    · by_cases hid : q.1 = id0 <;>
        simp [List.filter_cons, List.countP_cons, hq, hid, List.count_cons,
          count_fst_filter I id0 qs]
    · simp [List.filter_cons, List.countP_cons, hq, count_fst_filter I id0 qs]

theorem countP_flatMap {α β} (p : β → Bool) (f : α → List β) :
    ∀ (l : List α), (l.flatMap f).countP p = (l.map (fun a => (f a).countP p)).sum
  | [] => rfl
  | a :: l => by
    simp [List.flatMap_cons, List.countP_append, countP_flatMap p f l]

theorem countP_pair_map (id0 I : String) (k : String) (imps : List String) :
    ((imps.map (fun i => (k, i))).countP (fun q => q.1 == id0 && q.2 == I)) =
      if k = id0 then imps.countP (fun i => i == I) else 0 := by
  rw [List.countP_map]
  by_cases hk : k = id0
  · have hfun : ((fun q : String × String => q.1 == id0 && q.2 == I) ∘ fun i => (k, i)) =
        fun i => i == I := by
      funext i
      simp [hk]
    rw [hfun, if_pos hk]
  · have hfun : ((fun q : String × String => q.1 == id0 && q.2 == I) ∘ fun i => (k, i)) =
        fun _ => false := by
      funext i
      simp [hk]
    rw [hfun, if_neg hk, List.countP_false]
    rfl

theorem sum_single_key (id0 I : String) (n0 : ComponentNode) :
    ∀ (l : Registry), (l.map Prod.fst).Nodup → (id0, n0) ∈ l →
      (l.map (fun kv => if kv.1 = id0 then kv.2.imports.countP (fun i => i == I) else 0)).sum
        = n0.imports.countP (fun i => i == I)
  | kv :: t, hnd, hmem => by
    have hnd' : (t.map Prod.fst).Nodup := (List.nodup_cons.mp hnd).2
    have hhead : kv.1 ∉ t.map Prod.fst := (List.nodup_cons.mp hnd).1
    rcases List.mem_cons.mp hmem with heq | hmem'
    · subst heq
      have hzero : ∀ (l' : Registry), id0 ∉ l'.map Prod.fst →
          (l'.map (fun kv => if kv.1 = id0 then kv.2.imports.countP (fun i => i == I) else 0)).sum = 0 := by
        intro l' h
        induction l' with
        | nil => rfl
        | cons a t' ih =>
          have h1 : a.1 ≠ id0 := by
            intro hcontra
            exact h (by simp [hcontra])
          have h2 : id0 ∉ t'.map Prod.fst := fun hm => h (List.mem_cons_of_mem _ hm)
          simp [h1, ih h2]
      simp only [List.map_cons, List.sum_cons]
      rw [hzero t hhead]
      simp
    · have h1 : kv.1 ≠ id0 := by
        intro hcontra
        subst hcontra
        exact hhead (List.mem_map.mpr ⟨(kv.1, n0), hmem', rfl⟩)
      simp only [List.map_cons, List.sum_cons, if_neg h1]
      rw [sum_single_key id0 I n0 t hnd' hmem']
      omega

/-- C6: after reverse-edge construction the key set and every
forward import list are unchanged, and for every registered node `(id0, n0)`
and key `I`, `id0` occurs in the reverse list of `I`'s node exactly as
often as `I` occurs in `n0.imports`; imports that are not registry
keys therefore contribute no reverse entry anywhere. -/
theorem C6_reverse_edges (reg : Registry)
    (hkeys : (reg.map Prod.fst).Nodup)
    (hinit : ∀ kv ∈ reg, kv.2.importedBy = ([] : List String)) :
    (∀ I : String, ((buildRelationships reg).lookup I).isNone = (reg.lookup I).isNone) ∧
    (∀ I : String, ((buildRelationships reg).lookup I).map (fun n => n.imports) =
      (reg.lookup I).map (fun n => n.imports)) ∧
    (∀ id0 n0, (id0, n0) ∈ reg → ∀ I n',
      (buildRelationships reg).lookup I = some n' →
      n'.importedBy.count id0 = n0.imports.count I) := by
  have hchar : ∀ I, (buildRelationships reg).lookup I =
      (reg.lookup I).map (fun n =>
        { n with importedBy :=
            n.importedBy ++ (((importPairs reg).filter (fun q => q.2 = I)).map Prod.fst) }) := by
    intro I
    rw [buildRelationships_eq_applyPairs, lookup_applyPairs]
  refine ⟨?_, ?_, ?_⟩
  · intro I
    rw [hchar I]
    cases reg.lookup I <;> rfl
  · intro I
    rw [hchar I]
    cases reg.lookup I <;> rfl
  · intro id0 n0 hmem I n' hn'
    rw [hchar I] at hn'
    cases hL : reg.lookup I with
    | none => rw [hL] at hn'; exact absurd hn' (by simp)
    | some nI =>
      rw [hL] at hn'
      have hn'' : n' = { nI with importedBy :=
          nI.importedBy ++ (((importPairs reg).filter (fun q => q.2 = I)).map Prod.fst) } := by
        simpa using hn'.symm
      have hIB : nI.importedBy = [] := hinit (I, nI) (lookup_mem hL)
      rw [hn'']
      simp only [List.count]
      rw [hIB, List.nil_append]
      have h1 := count_fst_filter I id0 (importPairs reg)
      simp only [List.count] at h1
      rw [h1]
      unfold importPairs
      rw [countP_flatMap]
      have h2 : ∀ kv : String × ComponentNode,
          ((kv.2.imports.map (fun i => (kv.1, i))).countP (fun q => q.1 == id0 && q.2 == I)) =
            if kv.1 = id0 then kv.2.imports.countP (fun i => i == I) else 0 :=
        fun kv => countP_pair_map id0 I kv.1 kv.2.imports
      simp only [h2]
      exact sum_single_key id0 I n0 reg hkeys hmem

/-- Registry node used by the C6 witness: imports `B.js` twice and one
unregistered path. -/
def c6NodeA : ComponentNode :=
  ⟨"A.js", "A", "A.js", "component", false, ["B.js", "B.js", "missing.js"], [], []⟩

/-- Second registry node for the C6 witness. -/
def c6NodeB : ComponentNode :=
  ⟨"B.js", "B", "B.js", "util", false, [], [], []⟩

/-- Concrete registry for the C6 witness. -/
def c6Reg : Registry := [("A.js", c6NodeA), ("B.js", c6NodeB)]

/-- C6 witness: in the two-node registry where `A.js` imports `B.js`
twice, the reverse list of `B.js` holds `A.js` exactly twice. -/
theorem C6_witness :
    ((buildRelationships c6Reg).lookup "B.js").map (fun n => n.importedBy.count "A.js") =
      some 2 := by
  have h := C6_reverse_edges c6Reg (by decide)
    (by intro kv hkv; simp [c6Reg] at hkv; rcases hkv with rfl | rfl <;> rfl)
  cases hE : (buildRelationships c6Reg).lookup "B.js" with
  | none =>
    have h0 := h.1 "B.js"
    rw [hE] at h0
    simp [c6Reg, List.lookup, c6NodeB] at h0
  | some n' =>
    have hc := h.2.2 "A.js" c6NodeA (List.mem_cons_self _ _) "B.js" n' hE
    have himp : c6NodeA.imports.count "B.js" = 2 := by decide
    rw [himp] at hc
    simp [hc]

/-! ## Tree construction (`buildTree`, claim C5) -/

/-- Go map append `dirNodes[dir] = append(dirNodes[dir], node)` on an
association list. -/
def addToDirMap (m : List (String × List ComponentNode)) (k : String) (n : ComponentNode) :
    List (String × List ComponentNode) :=
  if m.any (fun kv => kv.1 = k) then
    m.map (fun kv => if kv.1 = k then (kv.1, kv.2 ++ [n]) else kv)
  else m ++ [(k, [n])]

/-- Embedding of the grouping phase of `buildTree` (lines 306-311):
group the registry's nodes by `filepath.Dir` of their path.  Go
iterates `NodesMap` in unspecified order; the list fixes one order. -/
def dirNodesOf (nodes : List ComponentNode) : List (String × List ComponentNode) :=
  nodes.foldl (fun m n => addToDirMap m (goDir n.path) n) []

/-- The synthesized directory node of `buildTreeRecursive` (lines
333-340). -/
def newDirNode (nodeDir : String) : ComponentNode :=
  { id := nodeDir, name := goBase nodeDir, path := nodeDir, type := "directory",
    multipleComp := false, imports := [], importedBy := [], children := [] }

/-- The subdirectory test of `buildTreeRecursive` (lines 329-332),
with the two nested conditions conjoined: `nodeDir` differs from `dir`,
has `dir` as a string prefix, and the remainder - after removing at
most one leading separator - contains no further separator.  Note this
is a plain string-prefix test: it does not require the boundary to
fall on a separator. -/
def dirChildCond (dir nodeDir : String) : Bool :=
  (nodeDir != dir && goStartsWith nodeDir dir) &&
    ((goTrimStart nodeDir dir != "") &&
      !(goContains (goTrimStart (goTrimStart nodeDir dir) "/") "/"))

/-- Loop body of `buildTreeRecursive`'s subdirectory pass; `sub`
supplies the recursively built subtree for an accepted key. -/
def treeLoopStep (sub : String → ComponentNode) (dir : String) (p : ComponentNode)
    (kv : String × List ComponentNode) : ComponentNode :=
  if kv.1 != dir && goStartsWith kv.1 dir then
    let relDir := goTrimStart kv.1 dir
    if relDir != "" && !(goContains (goTrimStart relDir "/") "/") then
      { p with children := p.children ++ [sub kv.1] }
    else p
  else p

/-- Embedding of `buildTreeRecursive` (lines 319-347).  First the
nodes grouped under exactly `dir` are appended as children, then each
key passing the subdirectory test contributes a recursively populated
synthetic directory node.  The fuel argument only bounds the
recursion; every chain of nested calls strictly increases the key
length, so any fuel exceeding the longest key is faithful. -/
def buildTreeRec : Nat → ComponentNode → String → List (String × List ComponentNode) →
    ComponentNode
  | 0, parent, _, _ => parent
  | fuel + 1, parent, dir, dirNodes =>
    let parent :=
      match dirNodes.lookup dir with
      | some nodes => { parent with children := parent.children ++ nodes }
      | none => parent
    dirNodes.foldl
      (treeLoopStep (fun nodeDir => buildTreeRec fuel (newDirNode nodeDir) nodeDir dirNodes) dir)
      parent

/-- Fuel that strictly dominates every chain of nested directory keys. -/
def treeFuel (m : List (String × List ComponentNode)) : Nat :=
  1 + m.foldl (fun a kv => a + kv.1.length + 1) 0

/-- Embedding of `buildTree` (lines 305-316): group by directory, then
recurse from the root node with the empty-string prefix. -/
def buildTree (root : ComponentNode) (nodes : List ComponentNode) : ComponentNode :=
  buildTreeRec (treeFuel (dirNodesOf nodes)) root "" (dirNodesOf nodes)

theorem treeLoopStep_eq (sub : String → ComponentNode) (dir : String) (p : ComponentNode)
    (kv : String × List ComponentNode) :
    treeLoopStep sub dir p kv =
      if dirChildCond dir kv.1 then { p with children := p.children ++ [sub kv.1] } else p := by
  unfold treeLoopStep dirChildCond
  by_cases h1 : (kv.1 != dir && goStartsWith kv.1 dir) = true
  · by_cases h2 : ((goTrimStart kv.1 dir != "") &&
        !(goContains (goTrimStart (goTrimStart kv.1 dir) "/") "/")) = true
    · simp [h1, h2]
    · simp [h1, h2]
  · simp [h1]

theorem foldl_treeLoopStep (sub : String → ComponentNode) (dir : String) :
    ∀ (l : List (String × List ComponentNode)) (p : ComponentNode),
      (l.foldl (treeLoopStep sub dir) p).children =
        p.children ++ ((l.filter (fun kv => dirChildCond dir kv.1)).map (fun kv => sub kv.1))
  | [], p => by simp
  | kv :: l, p => by
    rw [List.foldl_cons, treeLoopStep_eq, foldl_treeLoopStep sub dir l]
    by_cases h : dirChildCond dir kv.1 = true
    · simp [h, List.filter_cons, List.append_assoc]
    · simp [h, List.filter_cons]

/-- C5 (amended): one expansion of the tree builder attaches, under
prefix `dir`, first exactly the nodes grouped at key `dir`, then one
synthesized directory node per key passing `dirChildCond dir` - a
plain string-prefix test, so a key like `srcfoo` does attach under
`src`, and the root-level grouping key `.` attaches under the root
prefix `""` as a synthesized `.` directory node. -/
theorem C5_dir_children (fuel : Nat) (dir : String)
    (m : List (String × List ComponentNode)) (parent : ComponentNode)
    (hp : parent.children = []) :
    (buildTreeRec (fuel + 1) parent dir m).children =
      (match m.lookup dir with | some ns => ns | none => []) ++
      ((m.filter (fun kv => dirChildCond dir kv.1)).map
        (fun kv => buildTreeRec fuel (newDirNode kv.1) kv.1 m)) := by
  simp only [buildTreeRec]
  rw [foldl_treeLoopStep]
  cases hL : m.lookup dir with
  | some ns => simp [hp]
  | none => simp [hp]

/-- Concrete grouping map for the C5 witness. -/
def c5M : List (String × List ComponentNode) := [("src", []), ("srcfoo", [])]

/-- C5 witness: at prefix `src` with keys `src` and `srcfoo`, the
expansion attaches exactly the synthesized `srcfoo` directory. -/
theorem C5_witness :
    (buildTreeRec 1 (newDirNode "root") "src" c5M).children.map (fun c => c.id) =
      ["srcfoo"] := by
  rw [C5_dir_children 0 "src" c5M (newDirNode "root") rfl]
  rfl

/-- Node of the C5 counterexample living in `src`. -/
def c5NodeA : ComponentNode := ⟨"src/a.js", "a", "src/a.js", "util", false, [], [], []⟩

/-- Node of the C5 counterexample living in `srcfoo`. -/
def c5NodeB : ComponentNode := ⟨"srcfoo/b.js", "b", "srcfoo/b.js", "util", false, [], [], []⟩

/-- Node of the C5 counterexample living in the project root. -/
def c5NodeC : ComponentNode := ⟨"index.js", "index", "index.js", "util", false, [], [], []⟩

/-- Root node of the C5 counterexample. -/
def c5Root : ComponentNode := ⟨"root", "proj", "proj", "root", false, [], [], []⟩

/-- C5 counterexample: with nodes in `src`, `srcfoo` and the project
root, the built tree attaches a `srcfoo` directory under `src` (the
key merely shares `src` as a string prefix), and the root-level file
`index.js` is not a direct child of the root but sits under a
synthesized `.` directory node. -/
theorem C5_counterexample :
    ((buildTree c5Root [c5NodeA, c5NodeB, c5NodeC]).children.map
        (fun c => (c.id, c.children.map (fun d => d.id)))) =
      [("src", ["src/a.js", "srcfoo"]), ("srcfoo", ["srcfoo/b.js"]), (".", ["index.js"])] ∧
    (buildTree c5Root [c5NodeA, c5NodeB, c5NodeC]).children.map (fun c => c.id) =
      ["src", "srcfoo", "."] := by decide

/-! ## Directory scan (`ScanProject`, claims C8-C10)

The file tree is modeled inductively; `filepath.Walk` visits the root
directory first and then descends in lexical order - the model keeps
the given list order, which none of the claims depend on.  Import
extraction (`extractImports`, which consults the file system and the
alias config) is abstracted as the `extractF` parameter, universally
quantified in every theorem; the claims here do not depend on
the imports a node carries. -/

/-- A file tree entry: a file with contents, or a directory. -/
inductive FSEntry where
  | file (name content : String)
  | dir (name : String) (entries : List FSEntry)

/-- Embedding of `ProjectStats` from `backend.go`. -/
structure ProjectStats where
  totalComponents : Nat
  multiCompFiles : Nat
  componentFiles : Nat
  stateFiles : Nat
  utilFiles : Nat
deriving DecidableEq

/-- Accumulator of the walk: the `Files` list, the `NodesMap`
registry, and the stats. -/
structure ScanAcc where
  files : List String
  nodesMap : List (String × ComponentNode)
  stats : ProjectStats

/-- The skip rule of `ScanProject` (lines 69-73): a directory named
`node_modules`, `build` or `dist`, or starting with a dot, is pruned. -/
def skipDirName (name : String) : Bool :=
  name = "node_modules" || name = "build" || name = "dist" || goStartsWith name "."

/-- Extend a relative path by one segment. -/
def joinPre (pre seg : String) : String := if pre = "" then seg else pre ++ "/" ++ seg

/-- Embedding of the pure part of `parseFile` (lines 126-171): derive
the display name, classify, compute the multiple-components flag only
for components, and attach the extracted imports. -/
def parseFileNode (extractF : String → String → List String)
    (rootName relPath fileName content : String) : ComponentNode :=
  let t := fileType content relPath fileName
  { id := relPath,
    name := componentNameOf fileName relPath rootName,
    path := relPath,
    type := t,
    multipleComp := if t = "component" then hasMultipleComponents content else false,
    imports := extractF content (goDir relPath),
    importedBy := [],
    children := [] }

/-- Embedding of the stats update of `ScanProject` (lines 89-100). -/
def bumpStats (s : ProjectStats) (node : ComponentNode) : ProjectStats :=
  let s := { s with totalComponents := s.totalComponents + 1 }
  if node.type = "component" then
    let s := { s with componentFiles := s.componentFiles + 1 }
    if node.multipleComp then { s with multiCompFiles := s.multiCompFiles + 1 } else s
  else if node.type = "state" then { s with stateFiles := s.stateFiles + 1 }
  else if node.type = "util" then { s with utilFiles := s.utilFiles + 1 }
  else s

/-- Embedding of the per-file branch of the walk callback (lines
76-102): eligible files are appended to `Files`, parsed, and
registered (with a stats update) when the derived name is non-empty. -/
def processFile (extractF : String → String → List String)
    (rootName pre name content : String) (acc : ScanAcc) : ScanAcc :=
  if isReactFile name then
    let relPath := joinPre pre name
    let node := parseFileNode extractF rootName relPath name content
    let files := acc.files ++ [relPath]
    if node.name ≠ "" then
      { files := files,
        nodesMap := acc.nodesMap ++ [(relPath, node)],
        stats := bumpStats acc.stats node }
    else { acc with files := files }
  else acc

mutual

/-- Walk one entry: files go through `processFile`; directories are
pruned by the skip rule or descended into. -/
def walkEntry (extractF : String → String → List String) (rootName pre : String)
    (acc : ScanAcc) : FSEntry → ScanAcc
  | .file name content => processFile extractF rootName pre name content acc
  | .dir name entries =>
    if skipDirName name then acc
    else walkList extractF rootName (joinPre pre name) acc entries

/-- Walk a directory's entries in order. -/
def walkList (extractF : String → String → List String) (rootName pre : String)
    (acc : ScanAcc) : List FSEntry → ScanAcc
  | [] => acc
  | e :: es => walkList extractF rootName pre (walkEntry extractF rootName pre acc e) es

end

/-- The all-zero stats a scan starts from. -/
def emptyStats : ProjectStats := ⟨0, 0, 0, 0, 0⟩

/-- Embedding of the walk phase of `ScanProject` (lines 45-108):
`filepath.Walk` visits the root directory itself first, so a root
whose own name matches the skip rule yields an empty scan; otherwise
the entries are walked from an empty accumulator.  (`buildRelationships`
and `buildTree`, applied afterwards in the source, are modeled above.) -/
def ScanProject (extractF : String → String → List String) (rootName : String)
    (entries : List FSEntry) : ScanAcc :=
  if skipDirName rootName then ⟨[], [], emptyStats⟩
  else walkList extractF rootName "" ⟨[], [], emptyStats⟩ entries

/-- A well-formed file-system name: non-empty, no path separator. -/
def goodName (s : String) : Bool := (s != "") && !(s.data.contains '/')

mutual

/-- Well-formedness of a tree entry: every name is a good name. -/
def wfEntry : FSEntry → Bool
  | .file name _ => goodName name
  | .dir name entries => goodName name && wfList entries

/-- Well-formedness of a list of entries. -/
def wfList : List FSEntry → Bool
  | [] => true
  | e :: es => wfEntry e && wfList es

end

/-! ## Claim C9: stats consistency -/

/-- The stats invariant of claim C9. -/
def statsInv (s : ProjectStats) : Prop :=
  s.totalComponents = s.componentFiles + s.stateFiles + s.utilFiles ∧
  s.multiCompFiles ≤ s.componentFiles

/-- The classifier assigns exactly one of the three roles. -/
theorem fileType_cases (content relPath fileName : String) :
    fileType content relPath fileName = "component" ∨
    fileType content relPath fileName = "state" ∨
    fileType content relPath fileName = "util" := by
  unfold fileType
  by_cases h1 : isComponentFile content fileName = true
  · simp [h1]
  · by_cases h2 : isStateFile content relPath = true <;> simp [h1, h2]

theorem bumpStats_inv (s : ProjectStats) (node : ComponentNode)
    (hinv : statsInv s)
    (htype : node.type = "component" ∨ node.type = "state" ∨ node.type = "util") :
    statsInv (bumpStats s node) := by
  obtain ⟨h1, h2⟩ := hinv
  unfold bumpStats
  rcases htype with h | h | h <;> rw [h]
  · rw [if_pos rfl]
    by_cases hm : node.multipleComp <;> simp [hm, statsInv] <;> omega
  · rw [if_neg (by decide), if_pos rfl]
    exact ⟨by simp [h1]; omega, by simpa using h2⟩
  · rw [if_neg (by decide), if_neg (by decide), if_pos rfl]
    exact ⟨by simp [h1]; omega, by simpa using h2⟩

theorem processFile_statsInv (extractF : String → String → List String)
    (rootName pre name content : String) (acc : ScanAcc)
    (hinv : statsInv acc.stats) :
    statsInv ((processFile extractF rootName pre name content acc).stats) := by
  unfold processFile
  by_cases hr : isReactFile name = true
  · simp only [hr, if_true]
    by_cases hn : (parseFileNode extractF rootName (joinPre pre name) name content).name ≠ ""
    · rw [if_pos hn]
      exact bumpStats_inv _ _ hinv (fileType_cases content (joinPre pre name) name)
    · rw [if_neg hn]
      exact hinv
  · simp only [hr, if_false]
    exact hinv

mutual

theorem walkEntry_statsInv (extractF : String → String → List String) (rootName pre : String)
    (acc : ScanAcc) (e : FSEntry) (hinv : statsInv acc.stats) :
    statsInv ((walkEntry extractF rootName pre acc e).stats) :=
  match e with
  | .file name content => processFile_statsInv extractF rootName pre name content acc hinv
  | .dir name entries => by
    unfold walkEntry
    by_cases hs : skipDirName name = true
    · simp only [hs, if_true]
      exact hinv
    · simp only [hs, if_false]
      exact walkList_statsInv extractF rootName (joinPre pre name) acc entries hinv

theorem walkList_statsInv (extractF : String → String → List String) (rootName pre : String)
    (acc : ScanAcc) (es : List FSEntry) (hinv : statsInv acc.stats) :
    statsInv ((walkList extractF rootName pre acc es).stats) :=
  match es with
  | [] => hinv
  | e :: es' =>
    walkList_statsInv extractF rootName pre (walkEntry extractF rootName pre acc e) es'
      (walkEntry_statsInv extractF rootName pre acc e hinv)

end

/-- C9: after every scan, `totalComponents` equals the sum of the
three role counters - every registered node carries exactly one of the
three roles and bumps that counter together with the total - and
`multiCompFiles` never exceeds `componentFiles`. -/
theorem C9_stats_invariant (extractF : String → String → List String) (rootName : String)
    (entries : List FSEntry) :
    (ScanProject extractF rootName entries).stats.totalComponents =
      (ScanProject extractF rootName entries).stats.componentFiles +
      (ScanProject extractF rootName entries).stats.stateFiles +
      (ScanProject extractF rootName entries).stats.utilFiles ∧
    (ScanProject extractF rootName entries).stats.multiCompFiles ≤
      (ScanProject extractF rootName entries).stats.componentFiles := by
  have h : statsInv (ScanProject extractF rootName entries).stats := by
    unfold ScanProject
    by_cases hs : skipDirName rootName = true
    · simp only [hs, if_true]
      exact ⟨rfl, Nat.le_refl _⟩
    · simp only [hs, if_false]
      exact walkList_statsInv extractF rootName "" ⟨[], [], emptyStats⟩ entries
        ⟨rfl, Nat.le_refl _⟩
  exact h

/-! ## Claim C8: directory pruning -/

theorem splitOnChar_ne_nil (sep : Char) : ∀ cs, splitOnChar sep cs ≠ []
  | [] => by simp [splitOnChar]
  | c :: cs => by
    simp only [splitOnChar]
    cases h : splitOnChar sep cs with
    | nil => exact absurd h (splitOnChar_ne_nil sep cs)
    | cons hd tl => by_cases hc : c = sep <;> simp [hc]

theorem splitOnChar_append_sep (sep : Char) : ∀ (xs ys : List Char),
    splitOnChar sep (xs ++ sep :: ys) = splitOnChar sep xs ++ splitOnChar sep ys
  | [], ys => by
    cases h : splitOnChar sep ys with
    | nil => exact absurd h (splitOnChar_ne_nil sep ys)
    | cons hd tl => simp [splitOnChar, h]
  | x :: xs, ys => by
    have ih := splitOnChar_append_sep sep xs ys
    cases h1 : splitOnChar sep xs with
    | nil => exact absurd h1 (splitOnChar_ne_nil sep xs)
    | cons hd tl =>
      by_cases hx : x = sep <;>
        simp [splitOnChar, List.cons_append, ih, h1, hx]

theorem splitOnChar_no_sep (sep : Char) : ∀ cs, cs.contains sep = false →
    splitOnChar sep cs = [cs]
  | [], _ => rfl
  | c :: cs, h => by
    rw [List.contains_cons, Bool.or_eq_false_iff] at h
    have hne : ¬c = sep := by
      intro heq
      subst heq
      simp at h
    simp [splitOnChar, splitOnChar_no_sep sep cs h.2, hne]

theorem splitSlash_no_sep (name : String) (hname : name.data.contains '/' = false) :
    splitSlash name = [name] := by
  unfold splitSlash
  rw [splitOnChar_no_sep '/' name.data hname]
  rfl

theorem splitSlash_joinPre (pre name : String) (hname : name.data.contains '/' = false)
    (hpre : pre ≠ "") : splitSlash (joinPre pre name) = splitSlash pre ++ [name] := by
  unfold joinPre
  rw [if_neg hpre]
  unfold splitSlash
  have hdata : (pre ++ "/" ++ name).data = pre.data ++ '/' :: name.data := by
    simp
  rw [hdata, splitOnChar_append_sep, splitOnChar_no_sep '/' name.data hname]
  simp

/-- Invariant carried through the walk: every recorded file path has
only non-pruned directory segments, and every registry key is in the
file list. -/
def accOk (acc : ScanAcc) : Prop :=
  (∀ p ∈ acc.files, ∀ seg ∈ (splitSlash p).dropLast, skipDirName seg = false) ∧
  (∀ kv ∈ acc.nodesMap, kv.1 ∈ acc.files)

/-- Invariant on the running prefix: all its segments are non-pruned. -/
def preOk (pre : String) : Prop := ∀ seg ∈ splitSlash pre, skipDirName seg = false

theorem preOk_empty : preOk "" := by
  intro seg hseg
  simp [splitSlash, splitOnChar] at hseg
  subst hseg
  decide

theorem preOk_join (pre name : String) (hpre : preOk pre)
    (hname : name.data.contains '/' = false) (hskip : skipDirName name = false) :
    preOk (joinPre pre name) := by
  by_cases hp : pre = ""
  · subst hp
    intro seg hseg
    rw [show joinPre "" name = name from rfl, splitSlash_no_sep name hname] at hseg
    simp at hseg
    subst hseg
    exact hskip
  · intro seg hseg
    rw [splitSlash_joinPre pre name hname hp] at hseg
    rcases List.mem_append.mp hseg with h | h
    · exact hpre seg h
    · simp at h
      subst h
      exact hskip

theorem dropLast_joinPre_sub (pre name : String) (hname : name.data.contains '/' = false) :
    ∀ seg ∈ (splitSlash (joinPre pre name)).dropLast, seg ∈ splitSlash pre := by
  by_cases hp : pre = ""
  · subst hp
    intro seg hseg
    rw [show joinPre "" name = name from rfl, splitSlash_no_sep name hname] at hseg
    simp at hseg
  · intro seg hseg
    rw [splitSlash_joinPre pre name hname hp, List.dropLast_concat] at hseg
    exact hseg

theorem processFile_accOk (extractF : String → String → List String)
    (rootName pre name content : String) (acc : ScanAcc)
    (hpre : preOk pre) (hacc : accOk acc) (hname : name.data.contains '/' = false) :
    accOk (processFile extractF rootName pre name content acc) := by
  obtain ⟨hfiles, hkeys⟩ := hacc
  have hrel : ∀ seg ∈ (splitSlash (joinPre pre name)).dropLast, skipDirName seg = false :=
    fun seg hseg => hpre seg (dropLast_joinPre_sub pre name hname seg hseg)
  have hfiles' : ∀ p ∈ acc.files ++ [joinPre pre name],
      ∀ seg ∈ (splitSlash p).dropLast, skipDirName seg = false := by
    intro p hp
    rcases List.mem_append.mp hp with h | h
    · exact hfiles p h
    · simp at h
      subst h
      exact hrel
  unfold processFile
  by_cases hr : isReactFile name = true
  · simp only [hr, if_true]
    by_cases hn : (parseFileNode extractF rootName (joinPre pre name) name content).name ≠ ""
    · rw [if_pos hn]
      refine ⟨hfiles', ?_⟩
      intro kv hkv
      rcases List.mem_append.mp hkv with h | h
      · exact List.mem_append_left _ (hkeys kv h)
      · simp at h
        subst h
        exact List.mem_append_right _ (by simp)
    · rw [if_neg hn]
      exact ⟨hfiles', fun kv hkv => List.mem_append_left _ (hkeys kv hkv)⟩
  · simp only [hr, if_false]
    exact ⟨hfiles, hkeys⟩

theorem goodName_parts (name : String) (h : goodName name = true) :
    name ≠ "" ∧ name.data.contains '/' = false := by
  unfold goodName at h
  rw [Bool.and_eq_true] at h
  constructor
  · simpa using h.1
  · cases hb : name.data.contains '/'
    · rfl
    · rw [hb] at h
      simp at h

mutual

theorem walkEntry_accOk (extractF : String → String → List String) (rootName pre : String)
    (acc : ScanAcc) (e : FSEntry) (hpre : preOk pre) (hacc : accOk acc)
    (hwf : wfEntry e = true) : accOk (walkEntry extractF rootName pre acc e) :=
  match e, hwf with
  | .file name content, hwf =>
    processFile_accOk extractF rootName pre name content acc hpre hacc
      (goodName_parts name hwf).2
  | .dir name entries, hwf => by
    have hw : goodName name = true ∧ wfList entries = true := by
      simpa [wfEntry] using hwf
    unfold walkEntry
    by_cases hs : skipDirName name = true
    · simp only [hs, if_true]
      exact hacc
    · simp only [hs, if_false]
      exact walkList_accOk extractF rootName (joinPre pre name) acc entries
        (preOk_join pre name hpre (goodName_parts name hw.1).2
          (Bool.not_eq_true _ ▸ hs)) hacc hw.2

theorem walkList_accOk (extractF : String → String → List String) (rootName pre : String)
    (acc : ScanAcc) (es : List FSEntry) (hpre : preOk pre) (hacc : accOk acc)
    (hwf : wfList es = true) : accOk (walkList extractF rootName pre acc es) :=
  match es, hwf with
  | [], _ => hacc
  | e :: es', hwf => by
    have hw : wfEntry e = true ∧ wfList es' = true := by
      simpa [wfList] using hwf
    exact walkList_accOk extractF rootName pre (walkEntry extractF rootName pre acc e) es'
      hpre (walkEntry_accOk extractF rootName pre acc e hpre hacc hw.1) hw.2

end

/-- C8: in a well-formed tree, no file beneath a pruned directory
(`node_modules`, `build`, `dist`, or dot-prefixed, at any depth) ever
reaches the `files` list - every directory segment of every recorded
path is non-pruned - and every `nodesMap` key is a recorded path; a
root directory that itself matches the skip rule yields an empty
scan. -/
theorem C8_pruning (extractF : String → String → List String) (rootName : String)
    (entries : List FSEntry) (hwf : wfList entries = true) :
    (∀ p ∈ (ScanProject extractF rootName entries).files,
      ∀ seg ∈ (splitSlash p).dropLast, skipDirName seg = false) ∧
    (∀ kv ∈ (ScanProject extractF rootName entries).nodesMap,
      kv.1 ∈ (ScanProject extractF rootName entries).files) ∧
    (skipDirName rootName = true → (ScanProject extractF rootName entries).files = [] ∧
      (ScanProject extractF rootName entries).nodesMap = []) := by
  by_cases hs : skipDirName rootName = true
  · have he : ScanProject extractF rootName entries = ⟨[], [], emptyStats⟩ := by
      unfold ScanProject
      rw [if_pos hs]
    rw [he]
    exact ⟨by simp, by simp, fun _ => ⟨rfl, rfl⟩⟩
  · have h : accOk (ScanProject extractF rootName entries) := by
      unfold ScanProject
      simp only [hs, if_false]
      exact walkList_accOk extractF rootName "" ⟨[], [], emptyStats⟩ entries preOk_empty
        ⟨by simp, by simp⟩ hwf
    exact ⟨h.1, h.2, fun hc => absurd hc hs⟩

/-- Concrete tree for the C8 witness: pruned directories with eligible
files inside, plus two eligible files outside them. -/
def c8Entries : List FSEntry :=
  [.dir "node_modules" [.file "lib.js" "x"],
   .dir ".git" [.file "conf.js" "x"],
   .dir "dist" [.file "bundle.js" "x"],
   .dir "build" [.file "out.js" "x"],
   .dir "src" [.file "App.jsx" "import React"],
   .file "index.js" "x"]

/-- C8 witness: on the concrete tree only `src/App.jsx` and `index.js`
survive, and the pruning conclusion holds by the theorem. -/
theorem C8_witness :
    wfList c8Entries = true ∧
    (ScanProject (fun _ _ => []) "proj" c8Entries).files = ["src/App.jsx", "index.js"] ∧
    (∀ p ∈ (ScanProject (fun _ _ => []) "proj" c8Entries).files,
      ∀ seg ∈ (splitSlash p).dropLast, skipDirName seg = false) :=
  ⟨by decide, by decide,
    (C8_pruning (fun _ _ => []) "proj" c8Entries (by decide)).1⟩

/-! ## Claim C10: dot-prefixed files are scanned -/

/-- The file `(f, c)` sits in the tree under the chain of directories
`dirs`. -/
def fileAt : List FSEntry → List String → String → String → Prop
  | es, [], f, c => FSEntry.file f c ∈ es
  | es, d :: ds, f, c => ∃ sub, FSEntry.dir d sub ∈ es ∧ fileAt sub ds f c

/-- Relative path of a file reached from prefix `pre` through `dirs`. -/
def relPathOf (pre : String) (dirs : List String) (f : String) : String :=
  joinPre (dirs.foldl joinPre pre) f

theorem processFile_mono (extractF : String → String → List String)
    (rootName pre name content : String) (acc : ScanAcc) :
    (∀ x ∈ acc.files, x ∈ (processFile extractF rootName pre name content acc).files) ∧
    (∀ x ∈ acc.nodesMap.map Prod.fst,
      x ∈ ((processFile extractF rootName pre name content acc).nodesMap.map Prod.fst)) := by
  unfold processFile
  by_cases hr : isReactFile name = true
  · simp only [hr, if_true]
    by_cases hn : (parseFileNode extractF rootName (joinPre pre name) name content).name ≠ ""
    · rw [if_pos hn]
      exact ⟨fun x hx => List.mem_append_left _ hx,
        fun x hx => by simp only [List.map_append] at *; exact List.mem_append_left _ hx⟩
    · rw [if_neg hn]
      exact ⟨fun x hx => List.mem_append_left _ hx, fun _ hx => hx⟩
  · simp only [hr, if_false]
    exact ⟨fun _ hx => hx, fun _ hx => hx⟩

mutual

theorem walkEntry_mono (extractF : String → String → List String) (rootName pre : String)
    (acc : ScanAcc) (e : FSEntry) :
    (∀ x ∈ acc.files, x ∈ (walkEntry extractF rootName pre acc e).files) ∧
    (∀ x ∈ acc.nodesMap.map Prod.fst,
      x ∈ ((walkEntry extractF rootName pre acc e).nodesMap.map Prod.fst)) :=
  match e with
  | .file name content => processFile_mono extractF rootName pre name content acc
  | .dir name entries => by
    unfold walkEntry
    by_cases hs : skipDirName name = true
    · simp only [hs, if_true]
      exact ⟨fun _ hx => hx, fun _ hx => hx⟩
    · simp only [hs, if_false]
      exact walkList_mono extractF rootName (joinPre pre name) acc entries

theorem walkList_mono (extractF : String → String → List String) (rootName pre : String)
    (acc : ScanAcc) (es : List FSEntry) :
    (∀ x ∈ acc.files, x ∈ (walkList extractF rootName pre acc es).files) ∧
    (∀ x ∈ acc.nodesMap.map Prod.fst,
      x ∈ ((walkList extractF rootName pre acc es).nodesMap.map Prod.fst)) :=
  match es with
  | [] => ⟨fun _ hx => hx, fun _ hx => hx⟩
  | e :: es' =>
    ⟨fun x hx =>
      (walkList_mono extractF rootName pre (walkEntry extractF rootName pre acc e) es').1 x
        ((walkEntry_mono extractF rootName pre acc e).1 x hx),
     fun x hx =>
      (walkList_mono extractF rootName pre (walkEntry extractF rootName pre acc e) es').2 x
        ((walkEntry_mono extractF rootName pre acc e).2 x hx)⟩

end

theorem processFile_adds (extractF : String → String → List String)
    (rootName pre f c : String) (acc : ScanAcc) (hf : isReactFile f = true) :
    joinPre pre f ∈ (processFile extractF rootName pre f c acc).files ∧
    (componentNameOf f (joinPre pre f) rootName ≠ "" →
      joinPre pre f ∈ ((processFile extractF rootName pre f c acc).nodesMap.map Prod.fst)) := by
  unfold processFile
  simp only [hf, if_true]
  by_cases hn : (parseFileNode extractF rootName (joinPre pre f) f c).name ≠ ""
  · rw [if_pos hn]
    exact ⟨by simp, fun _ => by simp⟩
  · rw [if_neg hn]
    refine ⟨by simp, fun hne => ?_⟩
    exact absurd hne hn

theorem walkList_reaches (extractF : String → String → List String) (rootName : String) :
    ∀ (dirs : List String) (es : List FSEntry) (pre : String) (acc : ScanAcc) (f c : String),
      fileAt es dirs f c → (∀ d ∈ dirs, skipDirName d = false) → isReactFile f = true →
      relPathOf pre dirs f ∈ (walkList extractF rootName pre acc es).files ∧
      (componentNameOf f (relPathOf pre dirs f) rootName ≠ "" →
        relPathOf pre dirs f ∈ ((walkList extractF rootName pre acc es).nodesMap.map Prod.fst)) := by
  intro dirs
  induction dirs with
  | nil =>
    intro es
    induction es with
    | nil =>
      intro pre acc f c hat _ _
      simp [fileAt] at hat
    | cons e es' ihe =>
      intro pre acc f c hat hd hf
      rcases List.mem_cons.mp hat with he | he
      · subst he
        have hstep := processFile_adds extractF rootName pre f c acc hf
        have hmono := walkList_mono extractF rootName pre
          (walkEntry extractF rootName pre acc (.file f c)) es'
        exact ⟨hmono.1 _ hstep.1, fun hne => hmono.2 _ (hstep.2 hne)⟩
      · exact ihe pre (walkEntry extractF rootName pre acc e) f c he hd hf
  | cons d ds ihd =>
    intro es
    induction es with
    | nil =>
      intro pre acc f c hat _ _
      obtain ⟨sub, hsub, _⟩ := hat
      simp at hsub
    | cons e es' ihe =>
      intro pre acc f c hat hd hf
      obtain ⟨sub, hsub, hrest⟩ := hat
      rcases List.mem_cons.mp hsub with he | he
      · subst he
        have hdskip : skipDirName d = false := hd d (List.mem_cons_self _ _)
        have hstep := ihd sub (joinPre pre d) acc f c hrest
          (fun x hx => hd x (List.mem_cons_of_mem _ hx)) hf
        have hentry : walkEntry extractF rootName pre acc (.dir d sub) =
            walkList extractF rootName (joinPre pre d) acc sub := by
          unfold walkEntry
          rw [if_neg (by rw [hdskip]; exact Bool.false_ne_true)]
        have hconv : walkList extractF rootName pre acc (FSEntry.dir d sub :: es') =
            walkList extractF rootName pre
              (walkList extractF rootName (joinPre pre d) acc sub) es' := by
          show walkList extractF rootName pre
              (walkEntry extractF rootName pre acc (.dir d sub)) es' = _
          rw [hentry]
        rw [hconv, show relPathOf pre (d :: ds) f = relPathOf (joinPre pre d) ds f from rfl]
        have hmono := walkList_mono extractF rootName pre
          (walkList extractF rootName (joinPre pre d) acc sub) es'
        exact ⟨hmono.1 _ hstep.1, fun hne => hmono.2 _ (hstep.2 hne)⟩
      · exact ihe pre (walkEntry extractF rootName pre acc e) f c ⟨sub, he, hrest⟩ hd hf

/-- C10: the dot-prefix skip rule applies only to directories: a file
whose name begins with `.` but carries an eligible extension, sitting
under non-pruned directories of a non-pruned root, is recorded in
`files`, and is registered in `nodesMap` whenever its derived display
name is non-empty. -/
theorem C10_hidden_file (extractF : String → String → List String) (rootName : String)
    (entries : List FSEntry) (dirs : List String) (fname content : String)
    (hroot : skipDirName rootName = false)
    (hdirs : ∀ d ∈ dirs, skipDirName d = false)
    (hat : fileAt entries dirs fname content)
    (_hdot : goStartsWith fname "." = true)
    (helig : isReactFile fname = true) :
    relPathOf "" dirs fname ∈ (ScanProject extractF rootName entries).files ∧
    (componentNameOf fname (relPathOf "" dirs fname) rootName ≠ "" →
      relPathOf "" dirs fname ∈
        ((ScanProject extractF rootName entries).nodesMap.map Prod.fst)) := by
  unfold ScanProject
  rw [if_neg (by rw [hroot]; exact Bool.false_ne_true)]
  exact walkList_reaches extractF rootName dirs entries "" ⟨[], [], emptyStats⟩ fname content
    hat hdirs helig

/-- Concrete tree for the C10 witness: a dot-prefixed TypeScript file
inside `src`. -/
def c10Entries : List FSEntry := [.dir "src" [.file ".hidden.ts" "let x = 1"]]

/-- C10 witness: `.hidden.ts` under `src` is scanned and registered. -/
theorem C10_witness :
    skipDirName "proj" = false ∧
    goStartsWith ".hidden.ts" "." = true ∧
    isReactFile ".hidden.ts" = true ∧
    "src/.hidden.ts" ∈ (ScanProject (fun _ _ => []) "proj" c10Entries).files ∧
    "src/.hidden.ts" ∈ ((ScanProject (fun _ _ => []) "proj" c10Entries).nodesMap.map Prod.fst) := by
  have hrel : relPathOf "" ["src"] ".hidden.ts" = "src/.hidden.ts" := by decide
  have h := C10_hidden_file (fun _ _ => []) "proj" c10Entries ["src"] ".hidden.ts" "let x = 1"
    (by decide) (by intro d hd; simp at hd; subst hd; decide)
    ⟨[FSEntry.file ".hidden.ts" "let x = 1"],
      List.mem_singleton.mpr rfl, List.mem_singleton.mpr rfl⟩
    (by decide) (by decide)
  rw [hrel] at h
  exact ⟨by decide, by decide, by decide, h.1, h.2 (by decide)⟩

end ReactViz
